import Mathlib

/-!
# Verification of the coinmarketcap-prices extension

A shallow embedding, in Lean 4, of the price-list extension consisting of the
view module (list rendering, formatting helpers, refresh handler, fetcher
selection) and the `formatters` utility module.  JavaScript strings are
modelled as Lean `String`s (ASCII contents), JavaScript numbers occurring in
the formatting helpers as rationals `ℚ`, and the effectful parts of the view
(toasts, React state updates) as explicit state passing on a `ViewState`
record.  Functions of the command layer whose source file is not part of the
repository snapshot are modelled from the specification and say so in their
doc comments.
-/

/-! ## JavaScript string primitives -/

/-- JS `' '.repeat(n)`: a string of `n` spaces. -/
def spaces (n : Nat) : String :=
  ⟨List.replicate n ' '⟩

/-- JS `s.endsWith(suf)` (ASCII). -/
def strEndsWith (s suf : String) : Bool :=
  decide (suf.data <:+ s.data)

/-- JS `hay.includes(needle)` (ASCII): substring containment. -/
def containsStr (hay needle : String) : Bool :=
  decide (needle.data <:+: hay.data)

/-- JS `s.toLowerCase()` (ASCII). -/
def lowerStr (s : String) : String :=
  ⟨s.data.map Char.toLower⟩

/-- JS `s.toUpperCase()` (ASCII). -/
def upperStr (s : String) : String :=
  ⟨s.data.map Char.toUpper⟩

/-- JS `s.trim()` (ASCII whitespace). -/
def trimStr (s : String) : String :=
  ⟨(s.data.dropWhile Char.isWhitespace).reverse.dropWhile Char.isWhitespace |>.reverse⟩

/-! ## JavaScript number formatting primitives

JS numbers reaching the formatting helpers are modelled as rationals `ℚ`;
all computation below is on their `num`/`den` fields so that every
definition reduces in the kernel. -/

/-- The decimal digit character for `d < 10`. -/
def digitChar (d : Nat) : Char :=
  Char.ofNat (48 + d)

/-- Decimal digit list of `n`, most significant first; fuel-based so that it
reduces in the kernel (`n + 1` is always enough fuel). -/
def natDigitsAux : Nat → Nat → List Nat
  | 0, _ => []
  | fuel + 1, n => if n < 10 then [n] else natDigitsAux fuel (n / 10) ++ [n % 10]

/-- Decimal digit list of `n`, most significant first. -/
def natDigits (n : Nat) : List Nat :=
  natDigitsAux (n + 1) n

/-- Decimal numeral of `n`, as JS renders the integral part of a number. -/
def natRepr (n : Nat) : String :=
  ⟨(natDigits n).map digitChar⟩

/-- Numeric value of a run of decimal digit characters. -/
def digitsToNat (l : List Char) : Nat :=
  l.foldl (fun acc c => 10 * acc + (c.toNat - 48)) 0

/-- Round the nonnegative value `p / q` to a whole number of hundredths,
nearest, ties upward — the rounding ES `Number.prototype.toFixed(2)`
performs on the (sign-stripped) mathematical value. -/
def roundHundredths (p q : Nat) : Nat :=
  (200 * p + q) / (2 * q)

/-- Render a whole number of hundredths as a decimal numeral with exactly
two fraction digits. -/
def fixed2OfNat (n : Nat) : String :=
  natRepr (n / 100) ++ "." ++ ⟨[digitChar (n / 10 % 10), digitChar (n % 10)]⟩

/-- ES `Number.prototype.toFixed(2)`: strip the sign, round the value to the
nearest hundredth (ties upward), render with exactly two fraction digits. -/
def toFixed2 (x : ℚ) : String :=
  if x.num < 0 then "-" ++ fixed2OfNat (roundHundredths (-x.num).toNat x.den)
  else fixed2OfNat (roundHundredths x.num.toNat x.den)

/-- Number of fraction digits displayed by a decimal string: the count of
characters after the first `.` (0 when there is no point). -/
def fracLen (s : String) : Nat :=
  ((s.data.dropWhile fun c => c != '.').drop 1).length

/-! ## Data model

Modelled from the spec: the `CryptoPrice` entity of `domain/models` (that
source file is not in the repository snapshot).  Field names follow the uses
in the view: `symbol`, `name`, `price`, the three optional percent changes,
optional `marketCap` and optional `iconUrl`. -/

structure CryptoPrice where
  symbol : String
  name : String
  price : String
  priceChangePercent1h : Option String := none
  priceChangePercent24h : Option String := none
  priceChangePercent7d : Option String := none
  marketCap : Option String := none
  iconUrl : Option String := none
  deriving DecidableEq, Repr

/-! ## View module: color assignment -/

/-- The Raycast `Color` values used by the view's palette. -/
inductive RColor where
  | blue | green | magenta | orange | purple | red | yellow | primaryText
  deriving DecidableEq, Repr

namespace View

/-- The 8-element color array of `getColorForCrypto` in the view module. -/
def colors : List RColor :=
  [.blue, .green, .magenta, .orange, .purple, .red, .yellow, .primaryText]

/-- The hash of `getColorForCrypto`: `ticker.split('').reduce((acc, char) =>
acc + char.charCodeAt(0), 0)`, the sum of the character codes. -/
def hashOf (ticker : String) : Nat :=
  ticker.data.foldl (fun acc c => acc + c.toNat) 0

/-- The view's `getColorForCrypto`: `colors[hash % colors.length]`.  The JS
array access yields `undefined` when out of range, hence the `Option`
result; the safety claim shows the access is always in range. -/
def getColorForCrypto (ticker : String) : Option RColor :=
  colors[hashOf ticker % colors.length]?

/-- The view's `formatPrice`: prepend a dollar sign. -/
def formatPrice (price : String) : String :=
  "$" ++ price

/-- The view's `padToFixedWidth`: a string already at least `width` long is
returned unchanged, otherwise `width - length` spaces are added,
`Math.floor` of half of them on the left and the rest on the right. -/
def padToFixedWidth (value : String) (width : Nat) : String :=
  if value.length ≥ width then value
  else
    let spacesToAdd := width - value.length
    let leftPad := spacesToAdd / 2
    let rightPad := spacesToAdd - leftPad
    spaces leftPad ++ value ++ spaces rightPad

/-- The local `formattedValue` of the view's `formatPercentageChange`:
`change.toFixed(2)` with a `+` in front when `isPositive` and a `%`
behind. -/
def formattedValue (change : ℚ) (isPositive : Bool) : String :=
  if isPositive then "+" ++ toFixed2 change ++ "%"
  else toFixed2 change ++ "%"

/-- The view's `formatPercentageChange`: the formatted value padded to
width 10. -/
def formatPercentageChange (change : ℚ) (isPositive : Bool) : String :=
  padToFixedWidth (formattedValue change isPositive) 10

end View

/-! ## Formatters module (`src/utils/formatters.ts`) -/

namespace Formatters

/-- Compact scaling step of `Intl.NumberFormat("en-US", currency USD,
compact notation)`: the CLDR en-US short divisors and suffixes, chosen by
the magnitude of the nonnegative value `p / q`. -/
def compactScale (p q : Nat) : Nat × String :=
  if p < 1000 * q then (1, "")
  else if p < 1000000 * q then (1000, "K")
  else if p < 1000000000 * q then (1000000, "M")
  else if p < 1000000000000 * q then (1000000000, "B")
  else (1000000000000, "T")

/-- Render a whole number of hundredths with at most two fraction digits,
trailing fraction zeros trimmed, as the compact Intl formatter displays the
scaled value. -/
def trimmedHundredths (n : Nat) : String :=
  if n % 100 = 0 then natRepr (n / 100)
  else if n % 10 = 0 then natRepr (n / 100) ++ "." ++ ⟨[digitChar (n / 10 % 10)]⟩
  else natRepr (n / 100) ++ "." ++ ⟨[digitChar (n / 10 % 10), digitChar (n % 10)]⟩

/-- The `Intl.NumberFormat("en-US", style currency USD, notation compact,
maximumFractionDigits 2)` call of `formatMarketCap`, modelled from its
documented CLDR en-US behaviour on the nonnegative value `p / q`: scale by
the compact divisor, round to at most two fraction digits, append the
compact suffix, put a dollar sign in front. -/
def intlCompactPos (p q : Nat) : String :=
  let ds := compactScale p q
  "$" ++ trimmedHundredths (roundHundredths p (ds.1 * q)) ++ ds.2

/-- The Intl formatter on a signed value: a minus sign in front of the
formatted magnitude. -/
def intlCompactUSD (v : ℚ) : String :=
  if v.num < 0 then "-" ++ intlCompactPos (-v.num).toNat v.den
  else intlCompactPos v.num.toNat v.den

/-- JS `parseFloat`, modelled on decimal numerals (an integral digit run,
optionally followed by a point and a fraction digit run; trailing garbage is
ignored, a string with no leading numeral gives `NaN`, i.e. `none`). -/
def parseDecimal (s : String) : Option ℚ :=
  let ip := s.data.takeWhile Char.isDigit
  let rest := s.data.dropWhile Char.isDigit
  let fp := match rest with
    | '.' :: r => r.takeWhile Char.isDigit
    | _ => []
  if ip.isEmpty && fp.isEmpty then none
  else
    let den : Nat := 10 ^ fp.length
    let num : Nat := digitsToNat ip * den + digitsToNat fp
    some (mkRat num den)

/-- `formatMarketCap`: `parseFloat` the decimal string, format it with the
compact USD Intl formatter (`"$NaN"` on a non-numeral input, as Intl
renders `NaN`). -/
def formatMarketCap (marketCap : String) : String :=
  match parseDecimal marketCap with
  | some value => intlCompactUSD value
  | none => "$NaN"

/-- The color table of the formatters module's `getColorForCrypto` (unused
by the view, which has its own palette-hashing `getColorForCrypto`). -/
def colorMap : List (String × String) :=
  [("BTC", "#f7931a"), ("ETH", "#627eea"), ("ADA", "#0033ad"),
   ("XRP", "#00aae4"), ("SOL", "#14f195"), ("DOGE", "#c3a634"),
   ("DOT", "#e6007a"), ("USDT", "#26a17b")]

/-- `symbol.replace(/USDT$|USD$/, "")`: strip a trailing quote currency. -/
def stripQuote (symbol : String) : String :=
  if strEndsWith symbol "USDT" then ⟨symbol.data.take (symbol.data.length - 4)⟩
  else if strEndsWith symbol "USD" then ⟨symbol.data.take (symbol.data.length - 3)⟩
  else symbol

/-- The formatters module's `getColorForCrypto`: a fixed per-currency hex
color, `"#888888"` when the base currency is not in the table. -/
def getColorForCrypto (symbol : String) : String :=
  match colorMap.find? (fun p => p.1 == stripQuote symbol) with
  | some p => p.2
  | none => "#888888"

end Formatters

/-! ## Prices command (`commands/get-prices-command`)

That source file is not part of the repository snapshot; the definitions of
this section are modelled from the specification's description of the
command layer. -/

namespace Command

/-- Whether a quote matches a search text: its symbol or its name contains
the text, case-insensitively. -/
def matchesSearch (q : CryptoPrice) (text : String) : Bool :=
  containsStr (lowerStr q.symbol) (lowerStr text) ||
  containsStr (lowerStr q.name) (lowerStr text)

/-- Modelled from the spec: `GetPricesCommand.filterPrices` (its source file
is missing from the snapshot) "returns the subsequence of quotes whose
symbol or name contains the search text (case-insensitive substring match);
empty search text returns the full list unchanged; this operation is pure
and synchronous". -/
def filterPrices (quotes : List CryptoPrice) (searchText : String) :
    List CryptoPrice :=
  if searchText = "" then quotes
  else quotes.filter fun q => matchesSearch q searchText

/-- Modelled from the spec: the quote-currency suffix step of `getPrices`
"appends the source's quote-currency suffix if absent"; the suffix of both
sources is `"USDT"` (the view strips a trailing `USDT` for display). -/
def withQuoteSuffix (symbol : String) : String :=
  if strEndsWith symbol "USDT" then symbol else symbol ++ "USDT"

/-- JS `split(',')` on a character list: the comma-separated groups. -/
def splitComma (l : List Char) : List (List Char) :=
  l.foldr
    (fun c acc =>
      if c = ',' then [] :: acc
      else
        match acc with
        | [] => [[c]]
        | h :: t => (c :: h) :: t)
    [[]]

/-- De-duplication keeping first occurrences. -/
def dedupKeepFirst (l : List String) : List String :=
  l.foldl (fun acc x => if acc.contains x then acc else acc ++ [x]) []

/-- Modelled from the spec: the ticker parsing of `getPrices` (its source
file is missing from the snapshot) "parses a comma-separated,
case-insensitive symbol list (trims whitespace, de-duplicates, ignores
empty entries), appends the source's quote-currency suffix if absent". -/
def parseTickers (tickerCsv : String) : List String :=
  let entries := (splitComma tickerCsv.data).map fun l => trimStr ⟨l⟩
  let symbols := (entries.filter fun s => s ≠ "").map upperStr
  (dedupKeepFirst symbols).map withQuoteSuffix

/-- Modelled from the spec: `GetPricesCommand.getPrices` (its source file is
missing from the snapshot) parses the ticker list, "delegates to the
configured fetcher, and returns the resulting quote list unmodified"; "for
all ticker lists, `getPrices` called with an empty or whitespace-only
string yields an empty result without invoking the fetcher".  The fetcher
is abstracted as a function from the parsed symbols to the quotes it
resolves. -/
def getPrices (fetch : List String → List CryptoPrice) (tickerCsv : String) :
    List CryptoPrice :=
  let symbols := parseTickers tickerCsv
  if symbols.isEmpty then [] else fetch symbols

end Command

/-! ## View module: fetcher selection and refresh handler -/

/-- The `dataSource` preference: its two recognized values. -/
inductive DataSource where
  | binance
  | coinmarketcap
  deriving DecidableEq, Repr

/-- A price fetcher instance, as constructed by the view: the Binance
fetcher, or the CoinMarketCap fetcher holding the API key it was given. -/
inductive Fetcher where
  | binanceFetcher
  | coinMarketCapFetcher (apiKey : String)
  deriving DecidableEq, Repr

/-- A toast notification, the view's only user-facing reporting channel. -/
structure Toast where
  failure : Bool
  title : String
  message : String
  deriving DecidableEq, Repr

/-- The toast shown by `getPriceFetcher` when the CoinMarketCap key is
missing. -/
def apiKeyMissingToast : Toast :=
  ⟨true, "CoinMarketCap API Key Missing",
    "Please add your API key in extension preferences"⟩

/-- The toast shown by `loadPrices` on an empty result. -/
def noPricesToast : Toast :=
  ⟨true, "No Prices Found", "Please check your tickers or API key"⟩

/-- The toast shown by `loadPrices` when the refresh cycle throws. -/
def errorToast (msg : String) : Toast :=
  ⟨true, "Error Loading Prices", msg⟩

/-- A JS thrown value: an `Error` carrying a message, or any other value,
carried here in its `String(...)` rendering. -/
inductive Thrown where
  | jsError (message : String)
  | otherValue (stringified : String)
  deriving DecidableEq, Repr

/-- `error instanceof Error ? error.message : String(error)`. -/
def Thrown.toMessage : Thrown → String
  | .jsError message => message
  | .otherValue stringified => stringified

/-- The view state touched by a refresh cycle: the `isLoading` and `prices`
React states and the stream of toasts shown so far. -/
structure ViewState where
  isLoading : Bool
  prices : List CryptoPrice
  toasts : List Toast
  deriving DecidableEq, Repr

namespace View

/-- The view's `getPriceFetcher`: on `"coinmarketcap"` with a falsy
(absent or empty) key, show the missing-key toast and fall back to the
Binance fetcher; with a key, the CoinMarketCap fetcher; on `"binance"` (the
`default` case of the `switch`), the Binance fetcher.  The first component
collects the toasts the call shows. -/
def getPriceFetcher (dataSource : DataSource)
    (coinmarketcapApiKey : Option String) : List Toast × Fetcher :=
  match dataSource with
  | .coinmarketcap =>
    match coinmarketcapApiKey with
    | none => ([apiKeyMissingToast], .binanceFetcher)
    | some key =>
      if key = "" then ([apiKeyMissingToast], .binanceFetcher)
      else ([], .coinMarketCapFetcher key)
  | .binance => ([], .binanceFetcher)

/-- The view's `loadPrices` refresh handler, as a state transformer.  The
outcome of the awaited `command.getPrices` call is passed in: `ok results`
for a normal return, `error e` for a thrown value.  Mirrors the source:
`setIsLoading(true)`; on a normal return show the no-prices toast when the
result is empty and replace `prices` with the result; on a throw show the
error toast with the thrown value's message; in all cases (`finally`)
`setIsLoading(false)`. -/
def loadPrices (outcome : Except Thrown (List CryptoPrice))
    (s : ViewState) : ViewState :=
  let loading := { s with isLoading := true }
  match outcome with
  | .ok results =>
    let notified :=
      if results.isEmpty then
        { loading with toasts := loading.toasts ++ [noPricesToast] }
      else loading
    { notified with prices := results, isLoading := false }
  | .error e =>
    { loading with
        toasts := loading.toasts ++ [errorToast e.toMessage]
        isLoading := false }

end View

/-! ## Concrete sample quotes -/

/-- A sample BTC quote. -/
def btcQuote : CryptoPrice :=
  { symbol := "BTCUSDT", name := "Bitcoin", price := "109000.00" }

/-- A sample ETH quote. -/
def ethQuote : CryptoPrice :=
  { symbol := "ETHUSDT", name := "Ethereum", price := "3800.00" }

/-! ## Helper lemmas -/

theorem spaces_length (n : Nat) : (spaces n).length = n := by
  show (List.replicate n ' ').length = n
  exact List.length_replicate n ' '

theorem strEndsWith_iff (s suf : String) :
    strEndsWith s suf = true ↔ suf.data <:+ s.data := by
  simp [strEndsWith]

theorem containsStr_iff (hay needle : String) :
    containsStr hay needle = true ↔ needle.data <:+: hay.data := by
  simp [containsStr]

theorem containsStr_nil (hay : String) : containsStr hay "" = true :=
  (containsStr_iff hay "").mpr List.nil_infix

theorem strEndsWith_append (s t : String) : strEndsWith (s ++ t) t = true := by
  rw [strEndsWith_iff, String.data_append]
  exact List.suffix_append s.data t.data

theorem dropWhile_all (p : Char → Bool) :
    ∀ l₁ l₂ : List Char, (∀ c ∈ l₁, p c = true) →
      List.dropWhile p (l₁ ++ l₂) = List.dropWhile p l₂ := by
  intro l₁
  induction l₁ with
  | nil => intro l₂ _; rfl
  | cons a l ih =>
    intro l₂ h
    have ha : p a = true := h a (List.mem_cons_self a l)
    rw [List.cons_append, List.dropWhile_cons, if_pos ha]
    exact ih l₂ fun c hc => h c (List.mem_cons_of_mem a hc)

theorem dropWhile_all_nil (p : Char → Bool) (l : List Char)
    (h : ∀ c ∈ l, p c = true) : List.dropWhile p l = [] := by
  induction l with
  | nil => rfl
  | cons a t ih =>
    rw [List.dropWhile_cons, if_pos (h a (List.mem_cons_self a t))]
    exact ih fun c hc => h c (List.mem_cons_of_mem a hc)

theorem natDigitsAux_lt_ten :
    ∀ fuel n : Nat, ∀ d ∈ natDigitsAux fuel n, d < 10 := by
  intro fuel
  induction fuel with
  | zero => intro n d hd; simp [natDigitsAux] at hd
  | succ f ih =>
    intro n d hd
    by_cases h : n < 10
    · simp [natDigitsAux, h] at hd
      omega
    · simp only [natDigitsAux, if_neg h, List.mem_append,
        List.mem_singleton] at hd
      rcases hd with hd | hd
      · exact ih (n / 10) d hd
      · subst hd; exact Nat.mod_lt n (by omega)

theorem digitChar_ne_dot (d : Nat) (h : d < 10) : digitChar d ≠ '.' := by
  interval_cases d <;> decide

theorem natRepr_ne_dot (n : Nat) : ∀ c ∈ (natRepr n).data, c ≠ '.' := by
  intro c hc
  have hc' : c ∈ (natDigits n).map digitChar := hc
  rw [List.mem_map] at hc'
  obtain ⟨d, hd, rfl⟩ := hc'
  exact digitChar_ne_dot d (natDigitsAux_lt_ten (n + 1) n d hd)

theorem fracLen_no_dot (a : String) (h : ∀ c ∈ a.data, c ≠ '.') :
    fracLen a = 0 := by
  show ((a.data.dropWhile fun c => c != '.').drop 1).length = 0
  rw [dropWhile_all_nil _ a.data fun c hc => bne_iff_ne.mpr (h c hc)]
  rfl

theorem fracLen_dot_append (a : String) (l : List Char)
    (h : ∀ c ∈ a.data, c ≠ '.') :
    fracLen (a ++ "." ++ ⟨l⟩) = l.length := by
  have hdata : (a ++ "." ++ (⟨l⟩ : String)).data = a.data ++ ('.' :: l) := by
    rw [String.data_append, String.data_append]
    show (a.data ++ ['.']) ++ l = a.data ++ '.' :: l
    rw [List.append_assoc]
    rfl
  show (((a ++ "." ++ (⟨l⟩ : String)).data.dropWhile
      fun c => c != '.').drop 1).length = l.length
  rw [hdata, dropWhile_all _ a.data ('.' :: l)
    fun c hc => bne_iff_ne.mpr (h c hc)]
  rfl

theorem fracLen_fixed2OfNat (k : Nat) : fracLen (fixed2OfNat k) = 2 := by
  have h := fracLen_dot_append (natRepr (k / 100))
    [digitChar (k / 10 % 10), digitChar (k % 10)] (natRepr_ne_dot (k / 100))
  simpa [fixed2OfNat] using h

theorem fracLen_minus_fixed2OfNat (k : Nat) :
    fracLen ("-" ++ fixed2OfNat k) = 2 := by
  have hassoc : "-" ++ fixed2OfNat k
      = ("-" ++ natRepr (k / 100)) ++ "."
        ++ (⟨[digitChar (k / 10 % 10), digitChar (k % 10)]⟩ : String) := by
    rw [fixed2OfNat, ← String.append_assoc, ← String.append_assoc]
  have hnd : ∀ c ∈ ("-" ++ natRepr (k / 100)).data, c ≠ '.' := by
    intro c hc
    rw [String.data_append] at hc
    rcases List.mem_append.mp hc with hc | hc
    · have hcm : c = '-' := by simpa using hc
      subst hcm; decide
    · exact natRepr_ne_dot _ c hc
  rw [hassoc, fracLen_dot_append _ _ hnd]
  rfl

theorem fracLen_toFixed2 (x : ℚ) : fracLen (toFixed2 x) = 2 := by
  simp only [toFixed2]
  split
  · exact fracLen_minus_fixed2OfNat _
  · exact fracLen_fixed2OfNat _

theorem fracLen_trimmedHundredths (n : Nat) :
    fracLen (Formatters.trimmedHundredths n) ≤ 2 := by
  simp only [Formatters.trimmedHundredths]
  split_ifs
  · rw [fracLen_no_dot _ (natRepr_ne_dot _)]; omega
  · rw [fracLen_dot_append _ _ (natRepr_ne_dot _)]; simp
  · rw [fracLen_dot_append _ _ (natRepr_ne_dot _)]; simp

theorem matchesSearch_empty (q : CryptoPrice) :
    Command.matchesSearch q "" = true := by
  show (containsStr (lowerStr q.symbol) (lowerStr "")
    || containsStr (lowerStr q.name) (lowerStr "")) = true
  rw [show lowerStr "" = "" from rfl, containsStr_nil, containsStr_nil]
  rfl

theorem withQuoteSuffix_endsWith (s : String) :
    strEndsWith (Command.withQuoteSuffix s) "USDT" = true := by
  simp only [Command.withQuoteSuffix]
  split
  · assumption
  · exact strEndsWith_append s "USDT"

theorem not_endsWith_double (s : String) (h : strEndsWith s "USDT" = false) :
    strEndsWith (s ++ "USDT") "USDTUSDT" = false := by
  cases hb : strEndsWith (s ++ "USDT") "USDTUSDT" with
  | false => rfl
  | true =>
    exfalso
    rw [strEndsWith_iff, String.data_append] at hb
    obtain ⟨t, ht⟩ := hb
    have hsplit : ("USDTUSDT" : String).data
        = ("USDT" : String).data ++ ("USDT" : String).data := by decide
    rw [hsplit, ← List.append_assoc] at ht
    have hts : t ++ ("USDT" : String).data = s.data :=
      List.append_cancel_right ht
    have hsuf : strEndsWith s "USDT" = true :=
      (strEndsWith_iff s "USDT").mpr ⟨t, hts⟩
    rw [h] at hsuf
    exact Bool.false_ne_true hsuf

theorem parseDecimal_num_nonneg (s : String) (v : ℚ)
    (h : Formatters.parseDecimal s = some v) : 0 ≤ v.num := by
  simp only [Formatters.parseDecimal] at h
  split at h
  · simp at h
  · rw [Option.some_inj] at h
    subst h
    exact Rat.num_nonneg.mpr (Rat.mkRat_nonneg (Int.natCast_nonneg _) _)

theorem intlCompactPos_shape (p q : Nat) :
    ∃ body suf, Formatters.intlCompactPos p q = "$" ++ body ++ suf
      ∧ suf ∈ (["", "K", "M", "B", "T"] : List String)
      ∧ fracLen body ≤ 2 := by
  refine ⟨Formatters.trimmedHundredths
      (roundHundredths p ((Formatters.compactScale p q).1 * q)),
    (Formatters.compactScale p q).2, rfl, ?_, fracLen_trimmedHundredths _⟩
  simp only [Formatters.compactScale]
  split_ifs <;> simp

/-! ## Claim theorems -/

/-- C1: `filterPrices(quotes, searchText)` returns exactly the subsequence
of quotes whose symbol or name contains the search text as a
case-insensitive substring, in the original order; `filterPrices(quotes,
"")` returns a list equal (same order, same elements) to `quotes`; the
operation is a pure function of its arguments; filtering BTC and ETH
quotes on `"bt"` keeps only the BTC quote. -/
theorem filterPrices_spec (quotes : List CryptoPrice) (text : String) :
    Command.filterPrices quotes "" = quotes
    ∧ Command.filterPrices quotes text
        = quotes.filter (fun q => Command.matchesSearch q text)
    ∧ List.Sublist (Command.filterPrices quotes text) quotes
    ∧ (∀ q, q ∈ Command.filterPrices quotes text
        ↔ q ∈ quotes ∧ Command.matchesSearch q text = true)
    ∧ Command.filterPrices [btcQuote, ethQuote] "bt" = [btcQuote] := by
  have hfilter : Command.filterPrices quotes text
      = quotes.filter (fun q => Command.matchesSearch q text) := by
    simp only [Command.filterPrices]
    split
    · next heq =>
        subst heq
        exact (List.filter_eq_self.mpr fun q _ => matchesSearch_empty q).symm
    · rfl
  refine ⟨by simp [Command.filterPrices], hfilter, ?_, ?_, by decide⟩
  · rw [hfilter]; exact List.filter_sublist quotes
  · intro q; rw [hfilter]; exact List.mem_filter

/-- C2: the view's color-assignment function picks its color from the fixed
8-color palette by the sum of the symbol's character codes modulo the
palette size: symbols with congruent character-code sums get the same
color, every result is a palette member, and the function is
deterministic — `"BTC"` always maps to the same color (`Color.Green`,
since its code sum 217 is ≡ 1 mod 8). -/
theorem getColorForCrypto_palette (t₁ t₂ : String)
    (h : View.hashOf t₁ % 8 = View.hashOf t₂ % 8) :
    View.getColorForCrypto t₁ = View.getColorForCrypto t₂
    ∧ (∃ c, View.getColorForCrypto t₁ = some c ∧ c ∈ View.colors)
    ∧ View.getColorForCrypto "BTC" = some RColor.green := by
  have hlt : View.hashOf t₁ % View.colors.length < View.colors.length :=
    Nat.mod_lt _ (by decide)
  refine ⟨?_, ?_, by decide⟩
  · simp only [View.getColorForCrypto]
    rw [show View.colors.length = 8 from rfl, h]
  · exact ⟨View.colors[View.hashOf t₁ % View.colors.length],
      by simp only [View.getColorForCrypto]
         exact List.getElem?_eq_getElem hlt,
      List.getElem_mem hlt⟩

/-- C2 witness: `"BTC"` and `"TBC"` have equal character-code sums mod 8,
so the palette-hashing theorem applies to them and gives equal colors. -/
theorem getColorForCrypto_palette_witness :
    View.hashOf "BTC" % 8 = View.hashOf "TBC" % 8
    ∧ View.getColorForCrypto "BTC" = View.getColorForCrypto "TBC" :=
  ⟨by decide, (getColorForCrypto_palette "BTC" "TBC" (by decide)).1⟩

/-- C3 counterexample: `formatPercentageChange(12345678, true)` renders as
the 13-character string `"+12345678.00%"`, not a 10-character one, so the
padding does not produce a fixed width of 10 for every numeric value. -/
theorem formatPercentageChange_not_always_width10 :
    View.formatPercentageChange 12345678 true = "+12345678.00%"
    ∧ (View.formatPercentageChange 12345678 true).length = 13 :=
  ⟨by decide, by decide⟩

/-- C3 (amended): `formatPercentageChange` renders the value with exactly 2
fraction digits, a `+` in front exactly when the flag is true and a `%`
behind; whenever that rendered string is shorter than 10 characters the
result is padded with spaces to exactly 10 characters, `floor(padding/2)`
of them on the left and the remainder on the right; in particular
`formatPercentageChange(5, true)` is the 10-character string
`"  +5.00%  "`. -/
theorem formatPercentageChange_spec (c : ℚ) (b : Bool)
    (h : (View.formattedValue c b).length < 10) :
    View.formatPercentageChange c b
      = spaces ((10 - (View.formattedValue c b).length) / 2)
        ++ View.formattedValue c b
        ++ spaces ((10 - (View.formattedValue c b).length)
            - (10 - (View.formattedValue c b).length) / 2)
    ∧ (View.formatPercentageChange c b).length = 10
    ∧ fracLen (toFixed2 c) = 2
    ∧ View.formattedValue c true = "+" ++ toFixed2 c ++ "%"
    ∧ View.formattedValue c false = toFixed2 c ++ "%"
    ∧ View.formatPercentageChange 5 true = "  +5.00%  " := by
  have hpad : View.formatPercentageChange c b
      = spaces ((10 - (View.formattedValue c b).length) / 2)
        ++ View.formattedValue c b
        ++ spaces ((10 - (View.formattedValue c b).length)
            - (10 - (View.formattedValue c b).length) / 2) := by
    simp only [View.formatPercentageChange, View.padToFixedWidth]
    rw [if_neg (by omega)]
  refine ⟨hpad, ?_, fracLen_toFixed2 c, rfl, rfl, by decide⟩
  rw [hpad, String.length_append, String.length_append,
    spaces_length, spaces_length]
  omega

/-- C3 witness: the amended theorem applied at `change = 5`,
`isPositive = true`, where the rendered string `"+5.00%"` is 6 characters
long. -/
theorem formatPercentageChange_spec_witness :
    (View.formattedValue 5 true).length < 10
    ∧ (View.formatPercentageChange 5 true).length = 10 :=
  ⟨by decide, (formatPercentageChange_spec 5 true (by decide)).2.1⟩

/-- C4: on a decimal-string magnitude, `formatMarketCap` returns a
dollar-prefixed, compact-suffixed currency string with at most 2 fraction
digits, and `formatMarketCap("1230000000")` is `"$1.23B"`. -/
theorem formatMarketCap_spec (s : String) (v : ℚ)
    (h : Formatters.parseDecimal s = some v) :
    (∃ body suf, Formatters.formatMarketCap s = "$" ++ body ++ suf
      ∧ suf ∈ (["", "K", "M", "B", "T"] : List String)
      ∧ fracLen body ≤ 2)
    ∧ Formatters.formatMarketCap "1230000000" = "$1.23B" := by
  have hnn : 0 ≤ v.num := parseDecimal_num_nonneg s v h
  have hfmt : Formatters.formatMarketCap s
      = Formatters.intlCompactPos v.num.toNat v.den := by
    unfold Formatters.formatMarketCap
    rw [h]
    show Formatters.intlCompactUSD v = _
    rw [Formatters.intlCompactUSD, if_neg (by omega)]
  rw [hfmt]
  exact ⟨intlCompactPos_shape _ _, by decide⟩

/-- C4 witness: the theorem applied at the decimal string
`"1230000000"`, which parses to the rational 1230000000. -/
theorem formatMarketCap_spec_witness :
    Formatters.parseDecimal "1230000000" = some (mkRat 1230000000 1)
    ∧ Formatters.formatMarketCap "1230000000" = "$1.23B" :=
  ⟨by decide,
    (formatMarketCap_spec "1230000000" (mkRat 1230000000 1) (by decide)).2⟩

/-- C5: the quote-currency suffix step of the ticker parsing appends
`"USDT"` exactly once to a symbol not already ending in it (and never
creates a doubled suffix), passes an already-suffixed symbol through
unchanged, and is idempotent; every symbol produced by the ticker parsing
ends in the suffix before lookup. -/
theorem withQuoteSuffix_spec (s : String) :
    (strEndsWith s "USDT" = false →
      Command.withQuoteSuffix s = s ++ "USDT"
      ∧ strEndsWith (Command.withQuoteSuffix s) "USDTUSDT" = false)
    ∧ (strEndsWith s "USDT" = true → Command.withQuoteSuffix s = s)
    ∧ Command.withQuoteSuffix (Command.withQuoteSuffix s)
        = Command.withQuoteSuffix s
    ∧ (∀ x ∈ Command.parseTickers s, strEndsWith x "USDT" = true) := by
  refine ⟨?_, ?_, ?_, ?_⟩
  · intro h
    have heq : Command.withQuoteSuffix s = s ++ "USDT" := by
      simp [Command.withQuoteSuffix, h]
    refine ⟨heq, ?_⟩
    rw [heq]
    exact not_endsWith_double s h
  · intro h
    simp [Command.withQuoteSuffix, h]
  · by_cases h : strEndsWith s "USDT" = true
    · simp [Command.withQuoteSuffix, h]
    · have h' : strEndsWith s "USDT" = false := by
        cases hb : strEndsWith s "USDT"
        · rfl
        · exact absurd hb h
      rw [show Command.withQuoteSuffix s = s ++ "USDT" from by
        simp [Command.withQuoteSuffix, h']]
      simp [Command.withQuoteSuffix, strEndsWith_append]
  · intro x hx
    simp only [Command.parseTickers, List.mem_map] at hx
    obtain ⟨y, _, rfl⟩ := hx
    exact withQuoteSuffix_endsWith y

/-- C5 witness: `"BTC"` does not end in the suffix and gets it appended
once; `"BTCUSDT"` already ends in it and passes through unchanged. -/
theorem withQuoteSuffix_spec_witness :
    strEndsWith "BTC" "USDT" = false
    ∧ Command.withQuoteSuffix "BTC" = "BTC" ++ "USDT"
    ∧ strEndsWith "BTCUSDT" "USDT" = true
    ∧ Command.withQuoteSuffix "BTCUSDT" = "BTCUSDT" :=
  ⟨by decide, ((withQuoteSuffix_spec "BTC").1 (by decide)).1, by decide,
    (withQuoteSuffix_spec "BTCUSDT").2.1 (by decide)⟩

/-- C6: `getPriceFetcher` is deterministic in the selector: with the
`"coinmarketcap"` source and a missing (absent or empty, i.e. falsy) key
it shows the missing-key warning toast and returns the Binance fetcher as
fallback; with the `"coinmarketcap"` source and a non-empty key it returns
the CoinMarketCap fetcher without a toast; in every other case it returns
the Binance fetcher without a toast. -/
theorem getPriceFetcher_spec (k : String) (hk : k ≠ "") :
    View.getPriceFetcher .coinmarketcap none
      = ([apiKeyMissingToast], .binanceFetcher)
    ∧ View.getPriceFetcher .coinmarketcap (some "")
      = ([apiKeyMissingToast], .binanceFetcher)
    ∧ View.getPriceFetcher .coinmarketcap (some k)
      = ([], .coinMarketCapFetcher k)
    ∧ (∀ key, View.getPriceFetcher .binance key = ([], .binanceFetcher)) := by
  refine ⟨rfl, by simp [View.getPriceFetcher], ?_, fun key => rfl⟩
  simp [View.getPriceFetcher, hk]

/-- C6 witness: the theorem applied at the non-empty key `"my-key"`. -/
theorem getPriceFetcher_spec_witness :
    View.getPriceFetcher .coinmarketcap (some "my-key")
      = ([], .coinMarketCapFetcher "my-key") :=
  (getPriceFetcher_spec "my-key" (by decide)).2.2.1

/-- C7: `loadPrices` catches a thrown value at the top of the handler and
reports it as a failure toast whose message is the `Error`'s message when
the thrown value is an `Error` and the stringified value otherwise; the
prices state is left untouched on a throw; and in every case — success or
failure — the handler finishes with `isLoading = false`, so the view
returns to an interactive state. -/
theorem loadPrices_spec (s : ViewState) (e : Thrown)
    (results : List CryptoPrice) :
    (View.loadPrices (.error e) s).isLoading = false
    ∧ (View.loadPrices (.ok results) s).isLoading = false
    ∧ (View.loadPrices (.error e) s).toasts
        = s.toasts ++ [errorToast e.toMessage]
    ∧ (View.loadPrices (.error e) s).prices = s.prices
    ∧ (∀ m, Thrown.toMessage (.jsError m) = m)
    ∧ (∀ str, Thrown.toMessage (.otherValue str) = str) :=
  ⟨rfl, rfl, rfl, rfl, fun _ => rfl, fun _ => rfl⟩

/-- C8: when the fetcher resolves zero quotes for a non-empty parsed ticker
list, the command layer still returns an empty list (a value, not an
error), and the refresh handler replaces the in-memory quote list with
that empty result, shows the empty-result notification toast, and ends
non-loading. -/
theorem getPrices_empty_result (fetch : List String → List CryptoPrice)
    (tickerCsv : String) (s : ViewState)
    (hne : Command.parseTickers tickerCsv ≠ [])
    (hz : fetch (Command.parseTickers tickerCsv) = []) :
    Command.getPrices fetch tickerCsv = []
    ∧ (View.loadPrices (.ok (Command.getPrices fetch tickerCsv)) s).prices
        = []
    ∧ (View.loadPrices (.ok (Command.getPrices fetch tickerCsv)) s).toasts
        = s.toasts ++ [noPricesToast]
    ∧ (View.loadPrices (.ok (Command.getPrices fetch tickerCsv)) s).isLoading
        = false := by
  have hemp : (Command.parseTickers tickerCsv).isEmpty = false := by
    cases hl : Command.parseTickers tickerCsv
    · exact absurd hl hne
    · rfl
  have hcmd : Command.getPrices fetch tickerCsv = [] := by
    simp only [Command.getPrices, hemp]
    exact hz
  rw [hcmd]
  exact ⟨rfl, rfl, rfl, rfl⟩

/-- C8 witness: a fetcher resolving nothing for the single ticker `"BTC"`;
the command returns `[]` and the handler's state shows the notification. -/
theorem getPrices_empty_result_witness :
    Command.parseTickers "BTC" ≠ []
    ∧ Command.getPrices (fun _ => []) "BTC" = []
    ∧ (View.loadPrices (.ok (Command.getPrices (fun _ => []) "BTC"))
        ⟨false, [btcQuote], []⟩).prices = []
    ∧ (View.loadPrices (.ok (Command.getPrices (fun _ => []) "BTC"))
        ⟨false, [btcQuote], []⟩).toasts = [] ++ [noPricesToast] :=
  ⟨by decide,
    (getPrices_empty_result (fun _ => []) "BTC" ⟨false, [btcQuote], []⟩
      (by decide) rfl).1,
    (getPrices_empty_result (fun _ => []) "BTC" ⟨false, [btcQuote], []⟩
      (by decide) rfl).2.1,
    (getPrices_empty_result (fun _ => []) "BTC" ⟨false, [btcQuote], []⟩
      (by decide) rfl).2.2.1⟩

/-- C9: `padToFixedWidth(value, width)` returns `value` unchanged whenever
its length is at least the target width, so `formatPercentageChange` can
return strings longer than 10 characters — the formatted number is never
truncated — as the 13-character result for change 12345678 shows. -/
theorem padToFixedWidth_long_unchanged (v : String) (w : Nat)
    (h : w ≤ v.length) :
    View.padToFixedWidth v w = v
    ∧ 10 < (View.formatPercentageChange 12345678 true).length := by
  constructor
  · simp only [View.padToFixedWidth]
    rw [if_pos h]
  · decide

/-- C9 witness: a 12-character string is returned unchanged when padded to
width 10. -/
theorem padToFixedWidth_long_unchanged_witness :
    (10 : Nat) ≤ ("0123456789AB" : String).length
    ∧ View.padToFixedWidth "0123456789AB" 10 = "0123456789AB" :=
  ⟨by decide, (padToFixedWidth_long_unchanged "0123456789AB" 10 (by decide)).1⟩

/-- C10: for every ticker string — the empty string included — the view's
`getColorForCrypto` hash is a nonnegative character-code sum, the index
`hash % colors.length` is within bounds of the 8-element palette, and the
array access yields a palette color (never `undefined`). -/
theorem getColorForCrypto_safe (t : String) :
    0 ≤ View.hashOf t
    ∧ View.hashOf t % View.colors.length < View.colors.length
    ∧ (∃ c, View.getColorForCrypto t = some c ∧ c ∈ View.colors)
    ∧ View.getColorForCrypto "" = some RColor.blue := by
  have hlt : View.hashOf t % View.colors.length < View.colors.length :=
    Nat.mod_lt _ (by decide)
  exact ⟨Nat.zero_le _, hlt,
    ⟨View.colors[View.hashOf t % View.colors.length],
      by simp only [View.getColorForCrypto]
         exact List.getElem?_eq_getElem hlt,
      List.getElem_mem hlt⟩,
    by decide⟩
